import Mathlib

/-!
# jscrawler: URL resolution and link extraction

A shallow embedding of `jscrawler.go`.  A Go string is modelled by the list of
its characters; every pattern the program searches for is ASCII, so positions
and slices correspond one to one.  A run-time panic (an out-of-range slice) is
modelled by `none`.
-/

namespace JsCrawler

/-- A Go string. -/
abbrev Str := List Char

/-! ## The `strings` functions used by the program -/

/-- Go `strings.HasPrefix`. -/
def HasPrefix (s pre : Str) : Bool := pre.isPrefixOf s

/-- Go `strings.HasSuffix`. -/
def HasSuffix (s suf : Str) : Bool := suf.reverse.isPrefixOf s.reverse

/-- Position of the first occurrence of `sub` in the string, if any. -/
def findFirst (sub : Str) : Str → Option Nat
  | [] => if sub.isEmpty then some 0 else none
  | c :: cs =>
    if sub.isPrefixOf (c :: cs) then some 0
    else (findFirst sub cs).map (· + 1)

/-- Position of the last occurrence of `sub` in the string, if any. -/
def findLast (sub : Str) : Str → Option Nat
  | [] => if sub.isEmpty then some 0 else none
  | c :: cs =>
    match findLast sub cs with
    | some j => some (j + 1)
    | none => if sub.isPrefixOf (c :: cs) then some 0 else none

/-- Go `strings.Index`: the first position of `sub`, or `-1`. -/
def Index (s sub : Str) : Int :=
  match findFirst sub s with
  | some i => (i : Int)
  | none => -1

/-- Go `strings.LastIndex`: the last position of `sub`, or `-1`. -/
def LastIndex (s sub : Str) : Int :=
  match findLast sub s with
  | some i => (i : Int)
  | none => -1

/-- Go `strings.Contains`. -/
def Contains (s sub : Str) : Bool := decide (Index s sub ≥ 0)

/-- Go `strings.TrimSuffix`. -/
def TrimSuffix (s suf : Str) : Str :=
  if HasSuffix s suf then s.take (s.length - suf.length) else s

/-- Go slice expression `s[lo:]`; `none` when the bound is out of range. -/
def sliceFrom (s : Str) (lo : Int) : Option Str :=
  if 0 ≤ lo ∧ lo ≤ (s.length : Int) then some (s.drop lo.toNat) else none

/-- Go slice expression `s[:hi]`; `none` when the bound is out of range. -/
def sliceTo (s : Str) (hi : Int) : Option Str :=
  if 0 ≤ hi ∧ hi ≤ (s.length : Int) then some (s.take hi.toNat) else none

/-! ## String constants of the program -/

def httpScheme : Str := "http://".toList
def httpsScheme : Str := "https://".toList
def httpColon : Str := "http:".toList
def httpsColon : Str := "https:".toList
def slash : Str := "/".toList
def slashSlash : Str := "//".toList
def schemeSep : Str := "://".toList
def dotJs : Str := ".js".toList
def dotJson : Str := ".json".toList
def srcKey : Str := "src".toList
def typeKey : Str := "type".toList
def scriptTag : Str := "script".toList
def textJavascript : Str := "text/javascript".toList

/-! ## `resolveURL` -/

/-- The function `resolveURL` of `jscrawler.go`. -/
def resolveURL (baseURL relativeURL : Str) : Option Str :=
  -- Handle absolute URLs
  if HasPrefix relativeURL httpScheme || HasPrefix relativeURL httpsScheme then
    some relativeURL
  -- Handle protocol-relative URLs
  else if HasPrefix relativeURL slashSlash then
    if HasPrefix baseURL httpsScheme then some (httpsColon ++ relativeURL)
    else some (httpColon ++ relativeURL)
  else
    -- Parse base URL
    let base := TrimSuffix baseURL slash
    -- Handle root-relative URLs
    if HasPrefix relativeURL slash then
      let schemeEnd := Index base schemeSep
      if schemeEnd = -1 then some relativeURL
      else
        let hostStart := schemeEnd + 3
        match sliceFrom base hostStart with
        | none => none
        | some rest =>
          let hostEnd := Index rest slash
          if hostEnd = -1 then some (base ++ relativeURL)
          else
            match sliceTo base (hostStart + hostEnd) with
            | none => none
            | some hostRoot => some (hostRoot ++ relativeURL)
    else
      -- Handle relative URLs
      let lastSlash := LastIndex base slash
      if lastSlash > Index base schemeSep + 2 then
        match sliceTo base lastSlash with
        | none => none
        | some dir => some (dir ++ slash ++ relativeURL)
      else some (base ++ slash ++ relativeURL)

/-! ## The result set of one page -/

/-- The Go map `jsLinks map[string]bool`, in which only `true` is ever stored:
the list of its keys, in insertion order and without repetition. -/
abbrev LinkSet := List Str

/-- The assignment `jsLinks[k] = true`. -/
def LinkSet.insert (jsLinks : LinkSet) (k : Str) : LinkSet :=
  if k ∈ jsLinks then jsLinks else jsLinks ++ [k]

/-- The branch on `complete` that both scans run for a candidate:
`jsLinks[resolveURL(baseURL, link)] = true` or `jsLinks[link] = true`. -/
def addLink (baseURL : Str) (complete : Bool) (jsLinks : LinkSet) (link : Str) :
    Option LinkSet :=
  if complete then
    match resolveURL baseURL link with
    | none => none
    | some fullURL => some (jsLinks.insert fullURL)
  else some (jsLinks.insert link)

/-! ## Textual scan: the pattern `['"]([^'"]*\.js[^'"]*)['"]` -/

/-- The single quote character. -/
def singleQuote : Char := Char.ofNat 39

/-- The double quote character. -/
def doubleQuote : Char := Char.ofNat 34

/-- The character class `['"]`. -/
def isQuote (c : Char) : Bool := c == singleQuote || c == doubleQuote

/-- The cutset of `strings.Trim(match[1], ...)`: both quote characters. -/
def quoteCutset : Str := [singleQuote, doubleQuote]

/-- Go `strings.Trim`: drops the leading and trailing characters that are in
the cutset. -/
def Trim (s cutset : Str) : Str :=
  ((s.dropWhile (fun c => decide (c ∈ cutset))).reverse.dropWhile
    (fun c => decide (c ∈ cutset))).reverse

/-- One match attempt of the pattern at the head of the string.  Between the
opening quote and the closing quote the pattern admits no quote, so group 1 is
the whole run up to the next quote, and it must contain `.js`.  The result is
the matched text, group 1 and the text after the match. -/
def matchHere : Str → Option (Str × Str × Str)
  | [] => none
  | q :: rest =>
    if isQuote q then
      match rest.span (fun c => !isQuote c) with
      | (_, []) => none
      | (w, q2 :: after) =>
        if Contains w dotJs then some (q :: (w ++ [q2]), w, after) else none
    else none

/-- Successive leftmost non-overlapping matches; each step consumes at least
one character, so a fuel of the length of the string is never exhausted. -/
def findAllAux : Nat → Str → List (List Str)
  | 0, _ => []
  | _ + 1, [] => []
  | fuel + 1, c :: cs =>
    match matchHere (c :: cs) with
    | some (whole, group, after) => [whole, group] :: findAllAux fuel after
    | none => findAllAux fuel cs

/-- Go `re.FindAllStringSubmatch(htmlContent, -1)` for the pattern of the
program: each match is the list of the whole match and group 1. -/
def FindAllStringSubmatch (s : Str) : List (List Str) := findAllAux s.length s

/-- The loop over `matches` in `extractJSLinks`. -/
def scanMatches (baseURL : Str) (complete : Bool) :
    List (List Str) → LinkSet → Option LinkSet
  | [], jsLinks => some jsLinks
  | m :: ms, jsLinks =>
    if m.length > 1 then
      let link := Trim (m.getD 1 []) quoteCutset
      if !Contains link dotJson then
        match addLink baseURL complete jsLinks link with
        | none => none
        | some jsLinks1 => scanMatches baseURL complete ms jsLinks1
      else scanMatches baseURL complete ms jsLinks
    else scanMatches baseURL complete ms jsLinks

/-! ## Structural scan over the parsed markup -/

/-- The node types of `golang.org/x/net/html`. -/
inductive NodeType where
  | ErrorNode | TextNode | DocumentNode | ElementNode | CommentNode
  | DoctypeNode | RawNode
  deriving DecidableEq, Repr

/-- An attribute of `html.Node`. -/
structure Attribute where
  Namespace : Str
  Key : Str
  Val : Str
  deriving DecidableEq, Repr

/-- A parsed markup tree: `html.Node` with the chain
`FirstChild`, `NextSibling`, ... given as the list of children. -/
inductive Node where
  | mk (typ : NodeType) (Data : Str) (Attr : List Attribute) (children : List Node)

/-- Go `strings.ToLower`, over the lower-case mapping of runes `lower`
(`unicode.ToLower`, a table of the Go library). -/
def ToLower (lower : Char → Char) (s : Str) : Str := s.map lower

/-- The loop over `n.Attr`: the pair `(src, scriptType)` after the loop. -/
def scanAttrs (lower : Char → Char) : List Attribute → Str × Str → Str × Str
  | [], st => st
  | attr :: rest, (src, scriptType) =>
    let src1 := if attr.Key = srcKey then attr.Val else src
    let scriptType1 := if attr.Key = typeKey then ToLower lower attr.Val else scriptType
    scanAttrs lower rest (src1, scriptType1)

/-- The first statement of `extractScriptTags`: what the node itself adds. -/
def visitNode (lower : Char → Char) (typ : NodeType) (data : Str) (attrs : List Attribute)
    (baseURL : Str) (complete : Bool) (jsLinks : LinkSet) : Option LinkSet :=
  if typ = NodeType.ElementNode ∧ data = scriptTag then
    let (src, scriptType) := scanAttrs lower attrs ([], [])
    if src ≠ [] ∧ (scriptType = textJavascript ∨ scriptType = []) then
      addLink baseURL complete jsLinks src
    else some jsLinks
  else some jsLinks

mutual
/-- The function `extractScriptTags` of `jscrawler.go`. -/
def extractScriptTags (lower : Char → Char) (n : Node) (baseURL : Str) (complete : Bool)
    (jsLinks : LinkSet) : Option LinkSet :=
  match n with
  | Node.mk typ data attrs children =>
    match visitNode lower typ data attrs baseURL complete jsLinks with
    | none => none
    | some jsLinks1 => extractChildren lower children baseURL complete jsLinks1
/-- The loop `for c := n.FirstChild; c != nil; c = c.NextSibling`. -/
def extractChildren (lower : Char → Char) (cs : List Node) (baseURL : Str) (complete : Bool)
    (jsLinks : LinkSet) : Option LinkSet :=
  match cs with
  | [] => some jsLinks
  | c :: rest =>
    match extractScriptTags lower c baseURL complete jsLinks with
    | none => none
    | some jsLinks1 => extractChildren lower rest baseURL complete jsLinks1
end

/-- The function `extractJSLinks` of `jscrawler.go`, up to the output loop:
the map `jsLinks` when the output loop starts.  `doc` is what
`html.Parse(strings.NewReader(htmlContent))` returned, `none` for an error. -/
def extractJSLinks (lower : Char → Char) (baseURL htmlContent : Str) (doc : Option Node)
    (complete : Bool) : Option LinkSet :=
  match scanMatches baseURL complete (FindAllStringSubmatch htmlContent) [] with
  | none => none
  | some jsLinks =>
    match doc with
    | some d => extractScriptTags lower d baseURL complete jsLinks
    | none => some jsLinks

/-- The output loop `for jsLink := range jsLinks`: Go visits the keys of a map
once each, in an unspecified order, so an emitted sequence is any rearrangement
of the keys. -/
def Emits (out : List Str) (jsLinks : LinkSet) : Prop := out.Perm jsLinks

/-! ## The two scans as the specification words them -/

/-- Candidates of the textual scan: group 1 of every match of the pattern,
surrounding quotes stripped, those containing `.json` left out. -/
def textualCandidates (htmlContent : Str) : List Str :=
  (((FindAllStringSubmatch htmlContent).filterMap (fun m => m.get? 1)).map
    (fun g => Trim g quoteCutset)).filter (fun link => !Contains link dotJson)

mutual
/-- The nodes of a tree in depth-first pre-order: the node, then its descendants. -/
def Node.preorder (n : Node) : List Node :=
  match n with
  | Node.mk typ data attrs children =>
    Node.mk typ data attrs children :: Node.preorderList children
/-- The nodes of a list of sibling trees, in depth-first pre-order. -/
def Node.preorderList (cs : List Node) : List Node :=
  match cs with
  | [] => []
  | c :: rest => Node.preorder c ++ Node.preorderList rest
end

/-- The value of the attribute `key` of an element, `none` when the element has
no such attribute; when the key is repeated the last occurrence is read. -/
def attrValue (key : Str) (attrs : List Attribute) : Option Str :=
  ((attrs.filter (fun a => decide (a.Key = key))).getLast?).map (fun a => a.Val)

/-- A `script` element node. -/
def isScriptElement : Node → Bool
  | Node.mk typ data _ _ => decide (typ = NodeType.ElementNode ∧ data = scriptTag)

/-- The `src` value of a node, if it has one. -/
def srcOf : Node → Option Str
  | Node.mk _ _ attrs _ => attrValue srcKey attrs

/-- The `type` value of a node, if it has one. -/
def typeOf : Node → Option Str
  | Node.mk _ _ attrs _ => attrValue typeKey attrs

/-- The type condition as the specification states it: the `type` attribute is
absent or equal to `text/javascript` ignoring case. -/
def typeAbsentOrJavascript (lower : Char → Char) (n : Node) : Bool :=
  match typeOf n with
  | none => true
  | some v => decide (ToLower lower v = textJavascript)

/-- The type condition with the empty value admitted: the `type` attribute is
absent, empty, or equal to `text/javascript` ignoring case. -/
def typeAbsentEmptyOrJavascript (lower : Char → Char) (n : Node) : Bool :=
  match typeOf n with
  | none => true
  | some v => decide (v = [] ∨ ToLower lower v = textJavascript)

/-- The `src` values read off a list of nodes: of each `script` element whose
type passes `typeOk` and whose `src` is present and non-empty, its `src`. -/
def nodeSrcs (typeOk : Node → Bool) (nodes : List Node) : List Str :=
  (nodes.filter (fun n => isScriptElement n && typeOk n)).filterMap
    (fun n => (srcOf n).filter (fun v => decide (v ≠ [])))

/-- The `src` values of the `script` elements of a tree, at any depth, whose
`src` is non-empty and whose type passes `typeOk`. -/
def scriptSrcs (typeOk : Node → Bool) (root : Node) : List Str :=
  nodeSrcs typeOk root.preorder

/-- Candidates of the structural scan of a page: the qualifying `src` values of
the parsed tree, none when parsing failed. -/
def structuralCandidates (lower : Char → Char) (doc : Option Node) : List Str :=
  match doc with
  | some d => scriptSrcs (typeAbsentEmptyOrJavascript lower) d
  | none => []

/-- The final form of a candidate: resolved against the base in complete mode,
verbatim otherwise. -/
def finalForm (baseURL : Str) (complete : Bool) (link : Str) : Option Str :=
  if complete then resolveURL baseURL link else some link

/-- What a scan does to the result set when its candidates are `cands`: the
set stays free of repetition and gains exactly the final forms of `cands`. -/
def Extends (baseURL : Str) (complete : Bool) (cands : List Str) (js js1 : LinkSet) : Prop :=
  (js.Nodup → js1.Nodup) ∧
    ∀ x, x ∈ js1 ↔ x ∈ js ∨ ∃ l ∈ cands, finalForm baseURL complete l = some x

/-! ## The type-mismatch property -/

/-- The nodes the structural scan visits for a parse result: the tree in
pre-order, none when parsing failed. -/
def parsedNodes (doc : Option Node) : List Node :=
  match doc with
  | some d => d.preorder
  | none => []

/-- A mismatched type: the node carries a `type` value, as `html.Parse` hands
it over (character references already decoded), that is non-empty and not
equal to `text/javascript` ignoring case. -/
def typeMismatched (lower : Char → Char) (n : Node) : Bool :=
  match typeOf n with
  | some v => decide (v ≠ [] ∧ ToLower lower v ≠ textJavascript)
  | none => false

/-- The tree `html.Parse` builds for a page that consists of one `script`
element, `attrs` being the attributes of the element as parsed: the document
node, `html`, then `head` holding the element, and an empty `body`. -/
def scriptDocument (attrs : List Attribute) : Node :=
  Node.mk NodeType.DocumentNode [] []
    [Node.mk NodeType.ElementNode "html".toList []
      [Node.mk NodeType.ElementNode "head".toList []
        [Node.mk NodeType.ElementNode scriptTag attrs []],
       Node.mk NodeType.ElementNode "body".toList [] []]]

/-- The page `<script type="text/css" src="x.js"></script>`; it holds no
character reference, so the parsed attribute values are the written ones. -/
def cssTypePage : Str := "<script type=\"text/css\" src=\"x.js\"></script>".toList

/-- The tree `html.Parse` builds for `cssTypePage`. -/
def cssTypeDocument : Node :=
  scriptDocument
    [{ Namespace := [], Key := typeKey, Val := "text/css".toList },
     { Namespace := [], Key := srcKey, Val := "x.js".toList }]

/-- The page `<script type="text/css" src="x.css"></script>`. -/
def cssSrcPage : Str := "<script type=\"text/css\" src=\"x.css\"></script>".toList

/-- The tree `html.Parse` builds for `cssSrcPage`. -/
def cssSrcDocument : Node :=
  scriptDocument
    [{ Namespace := [], Key := typeKey, Val := "text/css".toList },
     { Namespace := [], Key := srcKey, Val := "x.css".toList }]

/-! ## The page of the merge property -/

/-- A page holding `<script src="app.js"></script>` and the literal
`'legacy.js'`. -/
def legacyPage : Str := "<script src=\"app.js\"></script><p>'legacy.js'</p>".toList

/-- The tree `html.Parse` builds for `legacyPage`: the `script` element in
`head`, the paragraph with its text in `body`. -/
def legacyDocument : Node :=
  Node.mk NodeType.DocumentNode [] []
    [Node.mk NodeType.ElementNode "html".toList []
      [Node.mk NodeType.ElementNode "head".toList []
        [Node.mk NodeType.ElementNode scriptTag
          [{ Namespace := [], Key := srcKey, Val := "app.js".toList }] []],
       Node.mk NodeType.ElementNode "body".toList []
        [Node.mk NodeType.ElementNode "p".toList []
          [Node.mk NodeType.TextNode "'legacy.js'".toList [] []]]]]

/-! ## The admission gate of `processURLsConcurrently` -/

/-- Where one spawned goroutine stands in its body. -/
inductive TaskPC where
  /-- At `sem <- struct{}{}`: started, no slot taken yet. -/
  | atAcquire
  /-- Inside the call `processURL(u, config, outputFile, &outputMutex)`. -/
  | inProcessURL
  /-- After `processURL` returned, at the deferred `<-sem`. -/
  | atRelease
  /-- After the deferred `<-sem` and `wg.Done()`. -/
  | finished
  deriving DecidableEq, Repr

/-- The state of a run: the URLs the `for` loop has not reached yet, the
goroutines started so far, and the number of values held in the channel `sem`. -/
structure PoolState where
  pending : List Str
  tasks : List TaskPC
  sem : Nat
  deriving DecidableEq, Repr

/-- One atomic step of a run. -/
inductive PoolEvent where
  /-- The `for` loop starts the goroutine of the next URL. -/
  | spawn
  /-- The goroutine with the given number takes its next step. -/
  | advance (i : Nat)
  deriving DecidableEq, Repr

/-- The state in which the `for` loop starts.  When an output file is
configured and cannot be opened the function returns before the loop, so no
goroutine is ever started. -/
def PoolState.initial (urls : List Str) (outputOpened : Bool) : PoolState :=
  { pending := if outputOpened then urls else [], tasks := [], sem := 0 }

/-- The effect of one step, for a channel `sem` of capacity `threads`.  A send
on a full channel blocks: the step leaves the state as it is. -/
def PoolState.step (threads : Nat) (s : PoolState) : PoolEvent → PoolState
  | PoolEvent.spawn =>
    match s.pending with
    | [] => s
    | _ :: rest => { s with pending := rest, tasks := s.tasks ++ [TaskPC.atAcquire] }
  | PoolEvent.advance i =>
    match s.tasks.get? i with
    | some TaskPC.atAcquire =>
      if s.sem < threads then
        { s with tasks := s.tasks.set i TaskPC.inProcessURL, sem := s.sem + 1 }
      else s
    | some TaskPC.inProcessURL => { s with tasks := s.tasks.set i TaskPC.atRelease }
    | some TaskPC.atRelease =>
      { s with tasks := s.tasks.set i TaskPC.finished, sem := s.sem - 1 }
    | _ => s

/-- The state after a sequence of steps. -/
def PoolState.run (threads : Nat) (s : PoolState) (events : List PoolEvent) : PoolState :=
  events.foldl (PoolState.step threads) s

/-- The number of goroutines that have sent to `sem` and not yet received
from it: those inside `processURL` and those at the deferred receive. -/
def PoolState.holding (s : PoolState) : Nat :=
  s.tasks.count TaskPC.inProcessURL + s.tasks.count TaskPC.atRelease

/-- The number of `processURL` calls executing in a state. -/
def PoolState.executing (s : PoolState) : Nat := s.tasks.count TaskPC.inProcessURL

/-! ## Lemmas on the string functions -/

theorem slash_eq : slash = ['/'] := rfl
theorem slashSlash_eq : slashSlash = ['/', '/'] := rfl
theorem schemeSep_eq : schemeSep = [':', '/', '/'] := rfl
theorem httpScheme_eq : httpScheme = ['h', 't', 't', 'p', ':', '/', '/'] := rfl
theorem httpsScheme_eq : httpsScheme = ['h', 't', 't', 'p', 's', ':', '/', '/'] := rfl

theorem hasPrefix_iff (s p : Str) : HasPrefix s p = true ↔ ∃ t, s = p ++ t := by
  unfold HasPrefix
  rw [List.isPrefixOf_iff_prefix]
  constructor
  · rintro ⟨t, ht⟩
    exact ⟨t, ht.symm⟩
  · rintro ⟨t, ht⟩
    exact ⟨t, ht.symm⟩

theorem findFirst_bound (sub : Str) :
    ∀ (s : Str) (k : Nat), findFirst sub s = some k → k + sub.length ≤ s.length := by
  intro s
  induction s with
  | nil =>
    intro k h
    cases sub with
    | nil => simp [findFirst] at h; simp [← h]
    | cons a t => simp [findFirst] at h
  | cons c cs ih =>
    intro k h
    unfold findFirst at h
    split at h
    · rename_i hp
      have hk : k = 0 := by simpa using h.symm
      have := (List.isPrefixOf_iff_prefix.mp hp).length_le
      simp only [hk, zero_add]
      exact this
    · cases hf : findFirst sub cs with
      | none => simp [hf] at h
      | some j =>
        simp [hf] at h
        have := ih j hf
        simp only [List.length_cons]
        omega

theorem findLast_bound (sub : Str) :
    ∀ (s : Str) (k : Nat), findLast sub s = some k → k + sub.length ≤ s.length := by
  intro s
  induction s with
  | nil =>
    intro k h
    cases sub with
    | nil => simp [findLast] at h; simp [← h]
    | cons a t => simp [findLast] at h
  | cons c cs ih =>
    intro k h
    unfold findLast at h
    cases hf : findLast sub cs with
    | some j =>
      simp [hf] at h
      have := ih j hf
      simp only [List.length_cons]
      omega
    | none =>
      simp only [hf] at h
      split at h
      · rename_i hp
        have hk : k = 0 := by simpa using h.symm
        have := (List.isPrefixOf_iff_prefix.mp hp).length_le
        simp only [hk, zero_add]
        exact this
      · simp at h

theorem findFirst_slash_none : ∀ (h : Str), '/' ∉ h → findFirst slash h = none := by
  intro h
  induction h with
  | nil => intro _; simp [findFirst, slash_eq]
  | cons c cs ih =>
    intro hn
    simp only [List.mem_cons, not_or] at hn
    have ih2 := ih hn.2
    rw [slash_eq] at ih2
    simp [findFirst, slash_eq, List.isPrefixOf, hn.1, ih2]

theorem findFirst_slash_append (q : Str) :
    ∀ (h : Str), '/' ∉ h → findFirst slash (h ++ '/' :: q) = some h.length := by
  intro h
  induction h with
  | nil => intro _; simp [findFirst, slash_eq, List.isPrefixOf]
  | cons c cs ih =>
    intro hn
    simp only [List.mem_cons, not_or] at hn
    have ih2 := ih hn.2
    rw [slash_eq] at ih2
    simp [findFirst, slash_eq, List.isPrefixOf, hn.1, ih2]

theorem findLast_slash_none : ∀ (h : Str), '/' ∉ h → findLast slash h = none := by
  intro h
  induction h with
  | nil => intro _; simp [findLast, slash_eq]
  | cons c cs ih =>
    intro hn
    simp only [List.mem_cons, not_or] at hn
    have ih2 := ih hn.2
    rw [slash_eq] at ih2
    simp [findLast, slash_eq, List.isPrefixOf, hn.1, ih2]

theorem findLast_slash_append (g : Str) (hg : '/' ∉ g) :
    ∀ (b : Str), findLast slash (b ++ '/' :: g) = some b.length := by
  intro b
  induction b with
  | nil =>
    have := findLast_slash_none g hg
    rw [slash_eq] at this
    simp [findLast, this, slash_eq, List.isPrefixOf]
  | cons c cs ih =>
    simp [findLast, ih]

theorem findFirst_sep_http (t : Str) : findFirst schemeSep (httpScheme ++ t) = some 4 := by
  simp [findFirst, schemeSep_eq, httpScheme_eq, List.isPrefixOf]

theorem findFirst_sep_https (t : Str) : findFirst schemeSep (httpsScheme ++ t) = some 5 := by
  simp [findFirst, schemeSep_eq, httpsScheme_eq, List.isPrefixOf]

theorem findLast_slash_http (h : Str) (hh : '/' ∉ h) :
    findLast slash (httpScheme ++ h) = some 6 := by
  have := findLast_slash_none h hh
  rw [slash_eq] at this
  simp [findLast, httpScheme_eq, this, slash_eq, List.isPrefixOf]

theorem findLast_slash_https (h : Str) (hh : '/' ∉ h) :
    findLast slash (httpsScheme ++ h) = some 7 := by
  have := findLast_slash_none h hh
  rw [slash_eq] at this
  simp [findLast, httpsScheme_eq, this, slash_eq, List.isPrefixOf]

theorem trimSuffix_slash_concat (b : Str) : TrimSuffix (b ++ ['/']) slash = b := by
  simp [TrimSuffix, HasSuffix, slash_eq, List.isPrefixOf]

theorem trimSuffix_slash_of_last (b : Str) (c : Char) (hc : c ≠ '/') :
    TrimSuffix (b ++ [c]) slash = b ++ [c] := by
  have : ¬ ('/' = c) := fun h => hc h.symm
  simp [TrimSuffix, HasSuffix, slash_eq, List.isPrefixOf, this]

theorem trimSuffix_nil : TrimSuffix [] slash = [] := by
  simp [TrimSuffix, HasSuffix, slash_eq, List.isPrefixOf]

theorem trimSuffix_slash_keeps (p t : Str) (ht : t ≠ []) :
    ∃ u, TrimSuffix (p ++ t) slash = p ++ u := by
  rcases List.eq_nil_or_concat t with h | ⟨t1, c, h⟩
  · exact absurd h ht
  · rw [List.concat_eq_append] at h
    subst h
    by_cases hc : c = '/'
    · subst hc
      refine ⟨t1, ?_⟩
      rw [← List.append_assoc]
      exact trimSuffix_slash_concat (p ++ t1)
    · refine ⟨t1 ++ [c], ?_⟩
      rw [← List.append_assoc]
      exact trimSuffix_slash_of_last (p ++ t1) c hc

theorem trimSuffix_slash_no_slash (p h : Str) (hne : h ≠ []) (hh : '/' ∉ h) :
    TrimSuffix (p ++ h) slash = p ++ h := by
  rcases List.eq_nil_or_concat h with h0 | ⟨h1, c, h0⟩
  · exact absurd h0 hne
  · rw [List.concat_eq_append] at h0
    subst h0
    have hc : c ≠ '/' := by
      intro hc
      apply hh
      simp [hc]
    rw [← List.append_assoc]
    exact trimSuffix_slash_of_last (p ++ h1) c hc

theorem hasPrefix_slashSlash_false (r : Str) (h : HasPrefix r slash = false) :
    HasPrefix r slashSlash = false := by
  cases r with
  | nil => simp [HasPrefix, slashSlash_eq, List.isPrefixOf]
  | cons c cs =>
    simp [HasPrefix, slash_eq, List.isPrefixOf] at h
    simp [HasPrefix, slashSlash_eq, List.isPrefixOf, h]

theorem hasPrefix_slash_not_scheme (r : Str) (h : HasPrefix r slash = true) :
    HasPrefix r httpScheme = false ∧ HasPrefix r httpsScheme = false := by
  cases r with
  | nil => simp [HasPrefix, slash_eq, List.isPrefixOf] at h
  | cons c cs =>
    simp [HasPrefix, slash_eq, List.isPrefixOf] at h
    subst h
    simp [HasPrefix, httpScheme_eq, httpsScheme_eq, List.isPrefixOf]

/-- The document-relative branch of `resolveURL`. -/
theorem resolveURL_doc (baseURL r : Str) (h1 : HasPrefix r slash = false)
    (h2 : HasPrefix r httpScheme = false) (h3 : HasPrefix r httpsScheme = false) :
    resolveURL baseURL r =
      if LastIndex (TrimSuffix baseURL slash) slash >
          Index (TrimSuffix baseURL slash) schemeSep + 2 then
        match sliceTo (TrimSuffix baseURL slash)
            (LastIndex (TrimSuffix baseURL slash) slash) with
        | none => none
        | some dir => some (dir ++ slash ++ r)
      else some (TrimSuffix baseURL slash ++ slash ++ r) := by
  have h4 := hasPrefix_slashSlash_false r h1
  simp [resolveURL, h1, h2, h3, h4]

/-- The root-relative branch of `resolveURL`. -/
theorem resolveURL_root (baseURL r : Str) (h1 : HasPrefix r slash = true)
    (h4 : HasPrefix r slashSlash = false) :
    resolveURL baseURL r =
      if Index (TrimSuffix baseURL slash) schemeSep = -1 then some r
      else
        match sliceFrom (TrimSuffix baseURL slash)
            (Index (TrimSuffix baseURL slash) schemeSep + 3) with
        | none => none
        | some rest =>
          if Index rest slash = -1 then some (TrimSuffix baseURL slash ++ r)
          else
            match sliceTo (TrimSuffix baseURL slash)
                (Index (TrimSuffix baseURL slash) schemeSep + 3 + Index rest slash) with
            | none => none
            | some hostRoot => some (hostRoot ++ r) := by
  obtain ⟨h2, h3⟩ := hasPrefix_slash_not_scheme r h1
  simp [resolveURL, h1, h2, h3, h4]

theorem sliceFrom_append (p t : Str) (k : Int) (hk : k = (p.length : Int)) :
    sliceFrom (p ++ t) k = some t := by
  subst hk
  simp [sliceFrom]

theorem sliceTo_append (p t : Str) (k : Int) (j : Nat) (hk : k = (p.length : Int) + j)
    (hj : j ≤ t.length) : sliceTo (p ++ t) k = some (p ++ t.take j) := by
  subst hk
  have h1 : ((p.length : Int) + (j : Int)).toNat = p.length + j := by omega
  have h2 : (p.length : Int) + (j : Int) ≤ (p.length : Int) + (t.length : Int) := by omega
  have h3 : (0 : Int) ≤ (p.length : Int) + (j : Int) := by omega
  simp [sliceTo, h1, h2, h3, List.take_append]

theorem index_of_findFirst {sub s : Str} {k : Nat} (h : findFirst sub s = some k) :
    Index s sub = (k : Int) := by
  simp [Index, h]

theorem index_of_findFirst_none {sub s : Str} (h : findFirst sub s = none) :
    Index s sub = -1 := by
  simp [Index, h]

theorem lastIndex_of_findLast {sub s : Str} {k : Nat} (h : findLast sub s = some k) :
    LastIndex s sub = (k : Int) := by
  simp [LastIndex, h]

theorem findFirst_sep_scheme (p : Str) (hp : p = httpScheme ∨ p = httpsScheme) (t : Str) :
    ∃ n : Nat, findFirst schemeSep (p ++ t) = some n ∧ n + 3 = p.length := by
  rcases hp with hp | hp
  · subst hp
    exact ⟨4, findFirst_sep_http t, rfl⟩
  · subst hp
    exact ⟨5, findFirst_sep_https t, rfl⟩

theorem findLast_slash_scheme (p : Str) (hp : p = httpScheme ∨ p = httpsScheme) (h : Str)
    (hh : '/' ∉ h) : ∃ n : Nat, findLast slash (p ++ h) = some n ∧ n + 1 = p.length := by
  rcases hp with hp | hp
  · subst hp
    exact ⟨6, findLast_slash_http h hh, rfl⟩
  · subst hp
    exact ⟨7, findLast_slash_https h hh, rfl⟩

/-- A base `p ++ h` with no slash in `h`: the document-relative branch appends. -/
theorem resolveURL_doc_host (baseURL p h r : Str) (hp : p = httpScheme ∨ p = httpsScheme)
    (hh : '/' ∉ h) (hbase : TrimSuffix baseURL slash = p ++ h)
    (hr1 : HasPrefix r slash = false) (hr2 : HasPrefix r httpScheme = false)
    (hr3 : HasPrefix r httpsScheme = false) :
    resolveURL baseURL r = some (p ++ h ++ slash ++ r) := by
  obtain ⟨n, hn, hnl⟩ := findFirst_sep_scheme p hp h
  obtain ⟨m, hm, hml⟩ := findLast_slash_scheme p hp h hh
  rw [resolveURL_doc _ _ hr1 hr2 hr3, hbase, lastIndex_of_findLast hm, index_of_findFirst hn]
  have : ¬ ((m : Int) > (n : Int) + 2) := by omega
  simp [this]

/-- A base `d ++ "/" ++ g` with `g` a last segment: the document-relative
branch replaces `g`. -/
theorem resolveURL_doc_segment (baseURL p rest g r : Str)
    (hp : p = httpScheme ∨ p = httpsScheme) (hrest : rest ≠ []) (hg : '/' ∉ g)
    (hbase : TrimSuffix baseURL slash = p ++ rest ++ '/' :: g)
    (hr1 : HasPrefix r slash = false) (hr2 : HasPrefix r httpScheme = false)
    (hr3 : HasPrefix r httpsScheme = false) :
    resolveURL baseURL r = some (p ++ rest ++ slash ++ r) := by
  obtain ⟨n, hn, hnl⟩ := findFirst_sep_scheme p hp (rest ++ '/' :: g)
  have hm := findLast_slash_append g hg (p ++ rest)
  have hlen : 0 < rest.length := List.length_pos.mpr hrest
  rw [resolveURL_doc _ _ hr1 hr2 hr3, hbase, lastIndex_of_findLast hm]
  rw [List.append_assoc p rest, index_of_findFirst hn, ← List.append_assoc p rest]
  have h1 : (((p ++ rest).length : Nat) : Int) > (n : Int) + 2 := by
    simp only [List.length_append]
    omega
  rw [if_pos h1, sliceTo_append (p ++ rest) ('/' :: g) _ 0 (by simp) (by simp)]
  simp

/-- C10: for a base `scheme://host` with no path and a document-relative
reference `r`, `resolveURL` returns `scheme://host/r`; nothing of the scheme
separator or of the host is stripped. -/
theorem resolveURL_base_without_path (p h r : Str)
    (hp : p = httpScheme ∨ p = httpsScheme) (hne : h ≠ []) (hh : '/' ∉ h)
    (hr1 : HasPrefix r slash = false) (hr2 : HasPrefix r httpScheme = false)
    (hr3 : HasPrefix r httpsScheme = false) :
    resolveURL (p ++ h) r = some (p ++ h ++ slash ++ r) :=
  resolveURL_doc_host (p ++ h) p h r hp hh (trimSuffix_slash_no_slash p h hne hh) hr1 hr2 hr3

theorem resolveURL_base_without_path_witness :
    resolveURL "https://a.b".toList "c.js".toList = some "https://a.b/c.js".toList :=
  resolveURL_base_without_path httpsScheme "a.b".toList "c.js".toList (Or.inr rfl)
    (by decide) (by decide) (by decide) (by decide) (by decide)

/-- C1, as stated, fails: the base `http://a/x/` is the prefix `http://a/x`
followed by `/` and an empty trailing segment, the reference `c.js` is
document-relative, yet the result is `http://a/c.js`, not `http://a/x/c.js`. -/
theorem resolveURL_trailing_slash_counterexample :
    ("a/x".toList ≠ [] ∧ '/' ∉ ([] : Str) ∧ HasPrefix "c.js".toList slash = false ∧
      HasPrefix "c.js".toList httpScheme = false ∧
      HasPrefix "c.js".toList httpsScheme = false) ∧
    resolveURL (httpScheme ++ "a/x".toList ++ slash ++ []) "c.js".toList
      = some "http://a/c.js".toList ∧
    resolveURL (httpScheme ++ "a/x".toList ++ slash ++ []) "c.js".toList
      ≠ some (httpScheme ++ "a/x".toList ++ slash ++ "c.js".toList) := by
  decide

/-- C1 (amended): for a base prefix `b` that is `http://` or `https://` followed
by at least one character, a trailing segment `g` without `/` and a
document-relative reference `r`, if `g` is non-empty, or the part of `b` after
the scheme separator contains no `/`, then `resolveURL (b + "/" + g) r` is
`b + "/" + r`. -/
theorem resolveURL_strips_last_segment (p rest g r : Str)
    (hp : p = httpScheme ∨ p = httpsScheme) (hrest : rest ≠ []) (hg : '/' ∉ g)
    (hcase : g ≠ [] ∨ '/' ∉ rest)
    (hr1 : HasPrefix r slash = false) (hr2 : HasPrefix r httpScheme = false)
    (hr3 : HasPrefix r httpsScheme = false) :
    resolveURL (p ++ rest ++ slash ++ g) r = some (p ++ rest ++ slash ++ r) := by
  by_cases hge : g = []
  · subst hge
    have hrs : '/' ∉ rest := by
      rcases hcase with h | h
      · exact absurd rfl h
      · exact h
    have hbase : TrimSuffix (p ++ rest ++ slash ++ []) slash = p ++ rest := by
      rw [List.append_nil, slash_eq]
      exact trimSuffix_slash_concat (p ++ rest)
    exact resolveURL_doc_host _ p rest r hp hrs hbase hr1 hr2 hr3
  · have hbase : TrimSuffix (p ++ rest ++ slash ++ g) slash = p ++ rest ++ '/' :: g := by
      rw [trimSuffix_slash_no_slash (p ++ rest ++ slash) g hge hg, slash_eq]
      simp
    exact resolveURL_doc_segment _ p rest g r hp hrest hg hbase hr1 hr2 hr3

theorem resolveURL_strips_last_segment_witness :
    resolveURL "http://a.b/x/y".toList "c.js".toList = some "http://a.b/x/c.js".toList :=
  resolveURL_strips_last_segment httpScheme "a.b/x".toList "y".toList "c.js".toList
    (Or.inl rfl) (by decide) (by decide) (Or.inl (by decide)) (by decide) (by decide)
    (by decide)

/-- C2: for a base `scheme://host` followed by a path that is empty or begins
with `/`, and a root-relative reference `r` (beginning with `/` but not `//`),
`resolveURL` returns `scheme://host` followed by `r`. -/
theorem resolveURL_root_relative (p h path r : Str)
    (hp : p = httpScheme ∨ p = httpsScheme) (hne : h ≠ []) (hh : '/' ∉ h)
    (hpath : path = [] ∨ HasPrefix path slash = true)
    (hr1 : HasPrefix r slash = true) (hr2 : HasPrefix r slashSlash = false) :
    resolveURL (p ++ h ++ path) r = some (p ++ h ++ r) := by
  have hbase : ∃ q, TrimSuffix (p ++ h ++ path) slash = p ++ h ++ q ∧
      (q = [] ∨ ∃ q1, q = '/' :: q1) := by
    rcases hpath with hq | hq
    · subst hq
      exact ⟨[], by simpa using trimSuffix_slash_no_slash p h hne hh, Or.inl rfl⟩
    · obtain ⟨path1, hpath1⟩ := (hasPrefix_iff path slash).mp hq
      rw [slash_eq] at hpath1
      subst hpath1
      rcases List.eq_nil_or_concat path1 with h0 | ⟨w, c, h0⟩
      · subst h0
        exact ⟨[], by simpa using trimSuffix_slash_concat (p ++ h), Or.inl rfl⟩
      · rw [List.concat_eq_append] at h0
        subst h0
        by_cases hc : c = '/'
        · subst hc
          refine ⟨'/' :: w, ?_, Or.inr ⟨w, rfl⟩⟩
          have := trimSuffix_slash_concat (p ++ h ++ '/' :: w)
          simpa using this
        · refine ⟨'/' :: (w ++ [c]), ?_, Or.inr ⟨_, rfl⟩⟩
          have := trimSuffix_slash_of_last (p ++ h ++ '/' :: w) c hc
          simpa using this
  obtain ⟨q, hq, hqc⟩ := hbase
  obtain ⟨n, hn, hnl⟩ := findFirst_sep_scheme p hp (h ++ q)
  rw [resolveURL_root _ _ hr1 hr2, hq, List.append_assoc p h q, index_of_findFirst hn]
  have hne1 : ¬ ((n : Int) = -1) := by omega
  rw [if_neg hne1, sliceFrom_append p (h ++ q) _ (by omega)]
  rcases hqc with hq0 | ⟨q1, hq1⟩
  · subst hq0
    have h1 : Index h slash = -1 :=
      index_of_findFirst_none (findFirst_slash_none h hh)
    simp [h1]
  · subst hq1
    have h1 : Index (h ++ '/' :: q1) slash = (h.length : Int) :=
      index_of_findFirst (findFirst_slash_append q1 h hh)
    have h2 : ¬ ((h.length : Int) = -1) := by omega
    have h3 : sliceTo (p ++ h ++ '/' :: q1) ((n : Int) + 3 + (h.length : Int))
        = some (p ++ h ++ List.take 0 ('/' :: q1)) :=
      sliceTo_append (p ++ h) ('/' :: q1) _ 0 (by simp only [List.length_append]; omega)
        (by simp)
    simp only [h1, if_neg h2]
    rw [← List.append_assoc p h, h3]
    simp

theorem resolveURL_root_relative_witness :
    resolveURL "https://a.b/x/y".toList "/c.js".toList = some "https://a.b/c.js".toList :=
  resolveURL_root_relative httpsScheme "a.b".toList "/x/y".toList "/c.js".toList
    (Or.inr rfl) (by decide) (by decide) (Or.inr (by decide)) (by decide) (by decide)

/-- Once the trimmed base is `p ++ t`, a reference that is neither absolute nor
protocol-relative resolves to a string that begins with `p`. -/
theorem resolveURL_keeps_scheme (baseURL p t r : Str) (hp : p = httpScheme ∨ p = httpsScheme)
    (hbase : TrimSuffix baseURL slash = p ++ t) (hr2 : HasPrefix r httpScheme = false)
    (hr3 : HasPrefix r httpsScheme = false) (hr4 : HasPrefix r slashSlash = false) :
    ∃ u, resolveURL baseURL r = some (p ++ u) := by
  obtain ⟨n, hn, hnl⟩ := findFirst_sep_scheme p hp t
  cases hr1 : HasPrefix r slash with
  | true =>
    rw [resolveURL_root _ _ hr1 hr4, hbase, index_of_findFirst hn]
    have hne1 : ¬ ((n : Int) = -1) := by omega
    rw [if_neg hne1, sliceFrom_append p t _ (by omega)]
    cases hf : findFirst slash t with
    | none =>
      refine ⟨t ++ r, ?_⟩
      simp [index_of_findFirst_none hf]
    | some k =>
      have hk := findFirst_bound slash t k hf
      simp only [slash_eq, List.length_singleton] at hk
      have h2 : ¬ ((k : Int) = -1) := by omega
      have h3 : sliceTo (p ++ t) ((n : Int) + 3 + (k : Int)) = some (p ++ List.take k t) :=
        sliceTo_append p t _ k (by omega) (by omega)
      refine ⟨List.take k t ++ r, ?_⟩
      simp only [index_of_findFirst hf, if_neg h2, h3]
      simp
  | false =>
    rw [resolveURL_doc _ _ hr1 hr2 hr3, hbase, index_of_findFirst hn]
    cases hf : findLast slash (p ++ t) with
    | none =>
      refine ⟨t ++ slash ++ r, ?_⟩
      have : ¬ ((-1 : Int) > (n : Int) + 2) := by omega
      simp [LastIndex, hf, this]
    | some j =>
      have hj := findLast_bound slash (p ++ t) j hf
      simp only [slash_eq, List.length_singleton, List.length_append] at hj
      rw [lastIndex_of_findLast hf]
      by_cases hgt : (j : Int) > (n : Int) + 2
      · have h3 : sliceTo (p ++ t) (j : Int) = some (p ++ List.take (j - p.length) t) :=
          sliceTo_append p t _ (j - p.length) (by omega) (by omega)
        refine ⟨List.take (j - p.length) t ++ slash ++ r, ?_⟩
        simp only [if_pos hgt, h3]
        simp
      · refine ⟨t ++ slash ++ r, ?_⟩
        simp [if_neg hgt]

/-- For a base that is `http://` or `https://` followed by at least one
character, every reference resolves to a string beginning with `http://` or
`https://`. -/
theorem resolveURL_scheme (p rest r : Str) (hp : p = httpScheme ∨ p = httpsScheme)
    (hrest : rest ≠ []) :
    ∃ out, resolveURL (p ++ rest) r = some out ∧
      (HasPrefix out httpScheme = true ∨ HasPrefix out httpsScheme = true) := by
  by_cases hr2 : HasPrefix r httpScheme = true
  · exact ⟨r, by simp [resolveURL, hr2], Or.inl hr2⟩
  by_cases hr3 : HasPrefix r httpsScheme = true
  · exact ⟨r, by simp [resolveURL, hr3], Or.inr hr3⟩
  simp only [Bool.not_eq_true] at hr2 hr3
  by_cases hr4 : HasPrefix r slashSlash = true
  · obtain ⟨t, ht⟩ := (hasPrefix_iff r slashSlash).mp hr4
    by_cases hb : HasPrefix (p ++ rest) httpsScheme = true
    · refine ⟨httpsColon ++ r, by simp [resolveURL, hr2, hr3, hr4, hb], Or.inr ?_⟩
      exact (hasPrefix_iff _ _).mpr ⟨t, by rw [ht]; rfl⟩
    · refine ⟨httpColon ++ r, by simp [resolveURL, hr2, hr3, hr4, hb], Or.inl ?_⟩
      exact (hasPrefix_iff _ _).mpr ⟨t, by rw [ht]; rfl⟩
  simp only [Bool.not_eq_true] at hr4
  obtain ⟨t, ht⟩ := trimSuffix_slash_keeps p rest hrest
  obtain ⟨u, hu⟩ := resolveURL_keeps_scheme (p ++ rest) p t r hp ht hr2 hr3 hr4
  refine ⟨p ++ u, hu, ?_⟩
  rcases hp with hp | hp
  · exact Or.inl ((hasPrefix_iff _ _).mpr ⟨u, by rw [hp]⟩)
  · exact Or.inr ((hasPrefix_iff _ _).mpr ⟨u, by rw [hp]⟩)

/-- `resolveURL` returns a string for every pair of arguments. -/
theorem resolveURL_total (baseURL r : Str) : ∃ out, resolveURL baseURL r = some out := by
  by_cases hr2 : HasPrefix r httpScheme = true
  · exact ⟨r, by simp [resolveURL, hr2]⟩
  by_cases hr3 : HasPrefix r httpsScheme = true
  · exact ⟨r, by simp [resolveURL, hr3]⟩
  simp only [Bool.not_eq_true] at hr2 hr3
  by_cases hr4 : HasPrefix r slashSlash = true
  · by_cases hb : HasPrefix baseURL httpsScheme = true
    · exact ⟨httpsColon ++ r, by simp [resolveURL, hr2, hr3, hr4, hb]⟩
    · exact ⟨httpColon ++ r, by simp [resolveURL, hr2, hr3, hr4, hb]⟩
  simp only [Bool.not_eq_true] at hr4
  generalize hB : TrimSuffix baseURL slash = base
  cases hr1 : HasPrefix r slash with
  | true =>
    rw [resolveURL_root _ _ hr1 hr4, hB]
    cases hf : findFirst schemeSep base with
    | none => exact ⟨r, by simp [index_of_findFirst_none hf]⟩
    | some n =>
      have hn := findFirst_bound schemeSep base n hf
      simp only [schemeSep_eq, List.length_cons, List.length_nil] at hn
      have hne1 : ¬ ((n : Int) = -1) := by omega
      have hs : sliceFrom base ((n : Int) + 3) = some (base.drop (n + 3)) := by
        have h1 : ((n : Int) + 3).toNat = n + 3 := by omega
        have h2 : (0 : Int) ≤ (n : Int) + 3 ∧ (n : Int) + 3 ≤ (base.length : Int) := by omega
        simp [sliceFrom, h1, h2]
      rw [index_of_findFirst hf, if_neg hne1, hs]
      cases hg : findFirst slash (base.drop (n + 3)) with
      | none => exact ⟨base ++ r, by simp [index_of_findFirst_none hg]⟩
      | some k =>
        have hk := findFirst_bound slash _ k hg
        simp only [slash_eq, List.length_singleton, List.length_drop] at hk
        have h2 : ¬ ((k : Int) = -1) := by omega
        have h3 : sliceTo base ((n : Int) + 3 + (k : Int)) = some (base.take (n + 3 + k)) := by
          have h1 : ((n : Int) + 3 + (k : Int)).toNat = n + 3 + k := by omega
          have h4 : (0 : Int) ≤ (n : Int) + 3 + (k : Int) ∧
              (n : Int) + 3 + (k : Int) ≤ (base.length : Int) := by omega
          simp [sliceTo, h1, h4]
        exact ⟨base.take (n + 3 + k) ++ r, by simp only [index_of_findFirst hg, if_neg h2, h3]⟩
  | false =>
    rw [resolveURL_doc _ _ hr1 hr2 hr3, hB]
    by_cases hgt : LastIndex base slash > Index base schemeSep + 2
    · have hidx : (-1 : Int) ≤ Index base schemeSep := by
        unfold Index
        split <;> omega
      cases hf : findLast slash base with
      | none =>
        have hl : LastIndex base slash = -1 := by simp [LastIndex, hf]
        rw [hl] at hgt
        omega
      | some j =>
        have hj := findLast_bound slash base j hf
        simp only [slash_eq, List.length_singleton] at hj
        have h3 : sliceTo base (j : Int) = some (base.take j) := by
          have h4 : (0 : Int) ≤ (j : Int) ∧ (j : Int) ≤ (base.length : Int) := by omega
          simp [sliceTo, h4]
        refine ⟨base.take j ++ slash ++ r, ?_⟩
        rw [if_pos hgt, lastIndex_of_findLast hf, h3]
    · exact ⟨base ++ slash ++ r, by rw [if_neg hgt]⟩

/-- C8: for every pair of strings `resolveURL` returns a string; no slice bound
it computes is out of range (an out-of-range slice is the only way the
embedding yields `none`). -/
theorem resolveURL_never_fails (baseURL relativeURL : Str) :
    (resolveURL baseURL relativeURL).isSome = true := by
  obtain ⟨out, h⟩ := resolveURL_total baseURL relativeURL
  simp [h]

/-! ## The result set -/

theorem mem_insert (js : LinkSet) (k x : Str) : x ∈ js.insert k ↔ x ∈ js ∨ x = k := by
  unfold LinkSet.insert
  split
  · rename_i h
    constructor
    · intro hx
      exact Or.inl hx
    · rintro (hx | hx)
      · exact hx
      · rw [hx]
        exact h
  · simp

theorem nodup_insert (js : LinkSet) (k : Str) (h : js.Nodup) : (js.insert k).Nodup := by
  unfold LinkSet.insert
  split
  · exact h
  · rename_i hk
    rw [List.nodup_append]
    refine ⟨h, List.nodup_singleton k, ?_⟩
    intro a ha hb
    simp only [List.mem_singleton] at hb
    subst hb
    exact hk ha

theorem finalForm_total (baseURL : Str) (complete : Bool) (link : Str) :
    ∃ f, finalForm baseURL complete link = some f := by
  cases complete with
  | true => simpa [finalForm] using resolveURL_total baseURL link
  | false => exact ⟨link, by simp [finalForm]⟩

theorem addLink_eq (baseURL : Str) (complete : Bool) (js : LinkSet) (link f : Str)
    (h : finalForm baseURL complete link = some f) :
    addLink baseURL complete js link = some (js.insert f) := by
  cases complete with
  | true =>
    simp only [finalForm, if_true] at h
    simp [addLink, h]
  | false =>
    simp only [finalForm] at h
    simp at h
    simp [addLink, h]

theorem extends_nil (baseURL : Str) (complete : Bool) (js : LinkSet) :
    Extends baseURL complete [] js js :=
  ⟨fun h => h, fun x => by simp⟩

theorem extends_addLink (baseURL : Str) (complete : Bool) (js : LinkSet) (link : Str) :
    ∃ js1, addLink baseURL complete js link = some js1 ∧
      Extends baseURL complete [link] js js1 := by
  obtain ⟨f, hf⟩ := finalForm_total baseURL complete link
  refine ⟨js.insert f, addLink_eq baseURL complete js link f hf, nodup_insert js f, ?_⟩
  intro x
  rw [mem_insert]
  constructor
  · rintro (h | h)
    · exact Or.inl h
    · exact Or.inr ⟨link, by simp, by rw [hf, h]⟩
  · rintro (h | ⟨l, hl, hx⟩)
    · exact Or.inl h
    · simp only [List.mem_singleton] at hl
      subst hl
      rw [hf] at hx
      exact Or.inr (Option.some.inj hx).symm

theorem extends_trans (baseURL : Str) (complete : Bool) (c1 c2 : List Str)
    (js js1 js2 : LinkSet) (h1 : Extends baseURL complete c1 js js1)
    (h2 : Extends baseURL complete c2 js1 js2) :
    Extends baseURL complete (c1 ++ c2) js js2 := by
  refine ⟨fun h => h2.1 (h1.1 h), ?_⟩
  intro x
  rw [h2.2 x, h1.2 x]
  simp only [List.mem_append]
  constructor
  · rintro ((h | ⟨l, hl, hx⟩) | ⟨l, hl, hx⟩)
    · exact Or.inl h
    · exact Or.inr ⟨l, Or.inl hl, hx⟩
    · exact Or.inr ⟨l, Or.inr hl, hx⟩
  · rintro (h | ⟨l, hl | hl, hx⟩)
    · exact Or.inl (Or.inl h)
    · exact Or.inl (Or.inr ⟨l, hl, hx⟩)
    · exact Or.inr ⟨l, hl, hx⟩

/-! ## The textual scan -/

theorem scanMatches_spec (baseURL : Str) (complete : Bool) :
    ∀ (ms : List (List Str)) (js : LinkSet),
      ∃ js1, scanMatches baseURL complete ms js = some js1 ∧
        Extends baseURL complete
          (((ms.filterMap (fun m => m.get? 1)).map (fun g => Trim g quoteCutset)).filter
            (fun link => !Contains link dotJson)) js js1 := by
  intro ms
  induction ms with
  | nil =>
    intro js
    exact ⟨js, rfl, extends_nil baseURL complete js⟩
  | cons m ms ih =>
    intro js
    match m with
    | [] =>
      obtain ⟨js1, h1, h2⟩ := ih js
      exact ⟨js1, by simpa [scanMatches] using h1, by simpa using h2⟩
    | [a] =>
      obtain ⟨js1, h1, h2⟩ := ih js
      exact ⟨js1, by simpa [scanMatches] using h1, by simpa using h2⟩
    | a :: b :: rest =>
      cases hc : Contains (Trim b quoteCutset) dotJson with
      | true =>
        obtain ⟨js1, h1, h2⟩ := ih js
        refine ⟨js1, by simpa [scanMatches, hc] using h1, ?_⟩
        simpa [List.filter_cons, hc] using h2
      | false =>
        obtain ⟨js0, h0, e0⟩ := extends_addLink baseURL complete js (Trim b quoteCutset)
        obtain ⟨js1, h1, h2⟩ := ih js0
        refine ⟨js1, by simpa [scanMatches, hc, h0] using h1, ?_⟩
        have := extends_trans baseURL complete _ _ js js0 js1 e0 h2
        simpa [List.filter_cons, hc] using this

/-! ## The structural scan -/

theorem attrValue_cons (key : Str) (a : Attribute) (rest : List Attribute) :
    attrValue key (a :: rest) =
      if a.Key = key then some ((attrValue key rest).getD a.Val) else attrValue key rest := by
  unfold attrValue
  by_cases h : a.Key = key
  · simp only [h, decide_True, List.filter_cons_of_pos, if_true]
    cases hf : List.filter (fun a => decide (a.Key = key)) rest with
    | nil => simp
    | cons b bs =>
      obtain ⟨x, hx⟩ : ∃ x, (b :: bs).getLast? = some x :=
        ⟨_, List.getLast?_eq_getLast _ (List.cons_ne_nil _ _)⟩
      simp [List.getLast?_cons_cons, hx]
  · simp [h]

theorem scanAttrs_eq (lower : Char → Char) :
    ∀ (attrs : List Attribute) (src ty : Str),
      scanAttrs lower attrs (src, ty) =
        ((attrValue srcKey attrs).getD src,
          ((attrValue typeKey attrs).map (ToLower lower)).getD ty) := by
  intro attrs
  induction attrs with
  | nil => intro src ty; simp [scanAttrs, attrValue]
  | cons a rest ih =>
    intro src ty
    have hne1 : srcKey ≠ typeKey := by decide
    have hne2 : typeKey ≠ srcKey := by decide
    simp only [scanAttrs, ih, attrValue_cons]
    by_cases h1 : a.Key = srcKey <;> by_cases h2 : a.Key = typeKey <;>
      simp [h1, h2, hne1, hne2]

theorem nodeSrcs_append (typeOk : Node → Bool) (a b : List Node) :
    nodeSrcs typeOk (a ++ b) = nodeSrcs typeOk a ++ nodeSrcs typeOk b := by
  simp [nodeSrcs]

theorem nodeSrcs_cons (typeOk : Node → Bool) (n : Node) (l : List Node) :
    nodeSrcs typeOk (n :: l) = nodeSrcs typeOk [n] ++ nodeSrcs typeOk l :=
  nodeSrcs_append typeOk [n] l

theorem srcOf_mk (typ : NodeType) (data : Str) (attrs : List Attribute)
    (children : List Node) : srcOf (Node.mk typ data attrs children) = attrValue srcKey attrs :=
  rfl

theorem typeOf_mk (typ : NodeType) (data : Str) (attrs : List Attribute)
    (children : List Node) :
    typeOf (Node.mk typ data attrs children) = attrValue typeKey attrs :=
  rfl

theorem isScriptElement_mk (typ : NodeType) (data : Str) (attrs : List Attribute)
    (children : List Node) :
    isScriptElement (Node.mk typ data attrs children)
      = decide (typ = NodeType.ElementNode ∧ data = scriptTag) :=
  rfl

theorem nodeSrcs_singleton (typeOk : Node → Bool) (n : Node) :
    nodeSrcs typeOk [n] =
      if (isScriptElement n && typeOk n) = true then
        ((srcOf n).filter (fun v => decide (v ≠ []))).toList
      else [] := by
  unfold nodeSrcs
  by_cases h : (isScriptElement n && typeOk n) = true
  · rw [if_pos h]
    have h2 : List.filter (fun n => isScriptElement n && typeOk n) [n] = [n] := by
      simp [List.filter_cons, h]
    rw [h2]
    cases hf : (srcOf n).filter (fun v => decide (v ≠ [])) with
    | none => simp only [List.filterMap_cons, List.filterMap_nil, hf, Option.toList]
    | some v => simp only [List.filterMap_cons, List.filterMap_nil, hf, Option.toList]
  · rw [if_neg h]
    have h2 : List.filter (fun n => isScriptElement n && typeOk n) [n] = [] := by
      simp [List.filter_cons, h]
    rw [h2]
    simp

theorem visitNode_spec (lower : Char → Char) (typ : NodeType) (data : Str)
    (attrs : List Attribute) (children : List Node) (baseURL : Str) (complete : Bool)
    (js : LinkSet) :
    ∃ js1, visitNode lower typ data attrs baseURL complete js = some js1 ∧
      Extends baseURL complete
        (nodeSrcs (typeAbsentEmptyOrJavascript lower) [Node.mk typ data attrs children])
        js js1 := by
  have skip : ∀ (_ : visitNode lower typ data attrs baseURL complete js = some js)
      (_ : nodeSrcs (typeAbsentEmptyOrJavascript lower)
        [Node.mk typ data attrs children] = []),
      ∃ js1, visitNode lower typ data attrs baseURL complete js = some js1 ∧
        Extends baseURL complete
          (nodeSrcs (typeAbsentEmptyOrJavascript lower) [Node.mk typ data attrs children])
          js js1 := by
    intro h1 h2
    rw [h2]
    exact ⟨js, h1, extends_nil baseURL complete js⟩
  have take : ∀ (v : Str)
      (_ : visitNode lower typ data attrs baseURL complete js
        = addLink baseURL complete js v)
      (_ : nodeSrcs (typeAbsentEmptyOrJavascript lower)
        [Node.mk typ data attrs children] = [v]),
      ∃ js1, visitNode lower typ data attrs baseURL complete js = some js1 ∧
        Extends baseURL complete
          (nodeSrcs (typeAbsentEmptyOrJavascript lower) [Node.mk typ data attrs children])
          js js1 := by
    intro v h1 h2
    rw [h1, h2]
    exact extends_addLink baseURL complete js v
  by_cases hs : typ = NodeType.ElementNode ∧ data = scriptTag
  · cases hsrc : attrValue srcKey attrs with
    | none =>
      apply skip
      · simp [visitNode, hs, scanAttrs_eq, hsrc]
      · simp [nodeSrcs_singleton, srcOf_mk, hsrc]
    | some v =>
      by_cases hv : v = []
      · apply skip
        · simp [visitNode, hs, scanAttrs_eq, hsrc, hv]
        · simp [nodeSrcs_singleton, srcOf_mk, hsrc, hv, Option.filter]
      · cases htype : attrValue typeKey attrs with
        | none =>
          apply take v
          · simp [visitNode, hs, scanAttrs_eq, hsrc, hv, htype]
          · simp [nodeSrcs_singleton, srcOf_mk, typeOf_mk, isScriptElement_mk,
              typeAbsentEmptyOrJavascript, hs, hsrc, hv, htype, Option.filter]
        | some t =>
          by_cases ht : t = [] ∨ ToLower lower t = textJavascript
          · have ht2 : ToLower lower t = textJavascript ∨ ToLower lower t = [] := by
              rcases ht with h | h
              · exact Or.inr (by simp [ToLower, h])
              · exact Or.inl h
            apply take v
            · simp [visitNode, hs, scanAttrs_eq, hsrc, hv, htype, ht2]
            · simp [nodeSrcs_singleton, srcOf_mk, typeOf_mk, isScriptElement_mk,
                typeAbsentEmptyOrJavascript, hs, hsrc, hv, htype, ht, Option.filter]
          · have ht2 : ¬ (ToLower lower t = textJavascript ∨ ToLower lower t = []) := by
              rintro (h | h)
              · exact ht (Or.inr h)
              · exact ht (Or.inl (by simpa [ToLower] using h))
            apply skip
            · simp [visitNode, hs, scanAttrs_eq, hsrc, hv, htype, ht2]
            · simp [nodeSrcs_singleton, srcOf_mk, typeOf_mk, isScriptElement_mk,
                typeAbsentEmptyOrJavascript, hs, hsrc, hv, htype, ht, Option.filter]
  · apply skip
    · simp [visitNode, hs]
    · simp [nodeSrcs_singleton, isScriptElement_mk, hs]

mutual
theorem extractScriptTags_spec (lower : Char → Char) (baseURL : Str) (complete : Bool) :
    ∀ (n : Node) (js : LinkSet),
      ∃ js1, extractScriptTags lower n baseURL complete js = some js1 ∧
        Extends baseURL complete (nodeSrcs (typeAbsentEmptyOrJavascript lower) n.preorder)
          js js1
  | Node.mk typ data attrs children, js => by
    obtain ⟨js0, h0, e0⟩ :=
      visitNode_spec lower typ data attrs children baseURL complete js
    obtain ⟨js1, h1, e1⟩ := extractChildren_spec lower baseURL complete children js0
    refine ⟨js1, ?_, ?_⟩
    · rw [extractScriptTags, h0]
      exact h1
    · rw [Node.preorder, nodeSrcs_cons]
      exact extends_trans baseURL complete _ _ js js0 js1 e0 e1
theorem extractChildren_spec (lower : Char → Char) (baseURL : Str) (complete : Bool) :
    ∀ (cs : List Node) (js : LinkSet),
      ∃ js1, extractChildren lower cs baseURL complete js = some js1 ∧
        Extends baseURL complete
          (nodeSrcs (typeAbsentEmptyOrJavascript lower) (Node.preorderList cs)) js js1
  | [], js => by
    refine ⟨js, ?_, ?_⟩
    · rw [extractChildren]
    · rw [Node.preorderList]
      exact extends_nil baseURL complete js
  | c :: rest, js => by
    obtain ⟨js0, h0, e0⟩ := extractScriptTags_spec lower baseURL complete c js
    obtain ⟨js1, h1, e1⟩ := extractChildren_spec lower baseURL complete rest js0
    refine ⟨js1, ?_, ?_⟩
    · rw [extractChildren, h0]
      exact h1
    · rw [Node.preorderList, nodeSrcs_append]
      exact extends_trans baseURL complete _ _ js js0 js1 e0 e1
end

/-! ## The pattern matches -/

theorem span_eq (p : Char → Bool) (l : Str) :
    l.span p = (l.takeWhile p, l.dropWhile p) := by
  rw [List.span_eq_take_drop]

theorem matchHere_some (s whole g after : Str) (h : matchHere s = some (whole, g, after)) :
    Contains g dotJs = true ∧ (∀ c ∈ g, isQuote c = false) ∧ after.length < s.length := by
  cases s with
  | nil => simp [matchHere] at h
  | cons q rest =>
    simp only [matchHere] at h
    by_cases hq : isQuote q = true
    · rw [if_pos hq, span_eq] at h
      have hlen := congrArg List.length
        (List.takeWhile_append_dropWhile (fun c => !isQuote c) rest)
      cases hd : List.dropWhile (fun c => !isQuote c) rest with
      | nil => simp [hd] at h
      | cons q2 tl =>
        rw [hd] at h hlen
        simp only at h
        by_cases hc : Contains (List.takeWhile (fun c => !isQuote c) rest) dotJs = true
        · rw [if_pos hc] at h
          simp only [Option.some.injEq, Prod.mk.injEq] at h
          obtain ⟨_, hg, ha⟩ := h
          subst hg
          subst ha
          refine ⟨hc, ?_, ?_⟩
          · intro c hcm
            have := List.mem_takeWhile_imp hcm
            simpa using this
          · simp only [List.length_append, List.length_cons] at hlen ⊢
            omega
        · rw [if_neg hc] at h
          simp at h
    · rw [if_neg hq] at h
      simp at h

theorem findAllAux_mem :
    ∀ (fuel : Nat) (s : Str) (m : List Str), m ∈ findAllAux fuel s →
      ∃ whole g, m = [whole, g] ∧ Contains g dotJs = true ∧ ∀ c ∈ g, isQuote c = false := by
  intro fuel
  induction fuel with
  | zero => intro s m h; simp [findAllAux] at h
  | succ n ih =>
    intro s m h
    cases s with
    | nil => simp [findAllAux] at h
    | cons c cs =>
      unfold findAllAux at h
      split at h
      · rename_i whole g after hm
        obtain ⟨h1, h2, _⟩ := matchHere_some _ _ _ _ hm
        rcases List.mem_cons.mp h with h | h
        · exact ⟨whole, g, h, h1, h2⟩
        · exact ih after m h
      · exact ih cs m h

/-- The fuel of `FindAllStringSubmatch` is never exhausted: any larger fuel
gives the same matches. -/
theorem findAllAux_fuel :
    ∀ (n m : Nat) (s : Str), s.length ≤ n → s.length ≤ m →
      findAllAux n s = findAllAux m s := by
  intro n
  induction n with
  | zero =>
    intro m s hn _
    have : s = [] := List.length_eq_zero.mp (Nat.le_zero.mp hn)
    subst this
    cases m <;> simp [findAllAux]
  | succ n ih =>
    intro m s hn hm
    cases s with
    | nil => cases m <;> simp [findAllAux]
    | cons c cs =>
      cases m with
      | zero => simp at hm
      | succ m =>
        simp only [List.length_cons, Nat.add_le_add_iff_right] at hn hm
        unfold findAllAux
        split
        · rename_i whole g after hmatch
          obtain ⟨_, _, hlt⟩ := matchHere_some _ _ _ _ hmatch
          simp only [List.length_cons] at hlt
          rw [ih m after (by omega) (by omega)]
        · rw [ih m cs hn hm]

theorem dropWhile_of_all_false (p : Char → Bool) (l : Str) (h : ∀ c ∈ l, p c = false) :
    l.dropWhile p = l := by
  cases l with
  | nil => rfl
  | cons a t => simp [List.dropWhile, h a (List.mem_cons_self a t)]

theorem trim_of_no_cutset (g cutset : Str) (h : ∀ c ∈ g, c ∉ cutset) :
    Trim g cutset = g := by
  unfold Trim
  rw [dropWhile_of_all_false _ g (by intro c hc; simpa using h c hc),
    dropWhile_of_all_false _ g.reverse
      (by intro c hc; simpa using h c (List.mem_reverse.mp hc)),
    List.reverse_reverse]

theorem textualCandidates_mem (htmlContent x : Str) (h : x ∈ textualCandidates htmlContent) :
    Contains x dotJs = true ∧ Contains x dotJson = false := by
  unfold textualCandidates at h
  rw [List.mem_filter, List.mem_map] at h
  obtain ⟨⟨g, hg, hx⟩, hj⟩ := h
  rw [List.mem_filterMap] at hg
  obtain ⟨m, hm, hm1⟩ := hg
  obtain ⟨whole, g1, hmeq, hjs, hq⟩ := findAllAux_mem _ _ m hm
  subst hmeq
  simp at hm1
  subst hm1
  have htrim : Trim g1 quoteCutset = g1 := by
    apply trim_of_no_cutset
    intro c hc hcut
    have := hq c hc
    simp [quoteCutset] at hcut
    simp [isQuote] at this
    rcases hcut with h1 | h1
    · exact this.1 h1
    · exact this.2 h1
  rw [htrim] at hx
  subst hx
  exact ⟨hjs, by simpa using hj⟩

/-! ## `extractJSLinks` -/

theorem extractJSLinks_spec (lower : Char → Char) (baseURL htmlContent : Str)
    (doc : Option Node) (complete : Bool) :
    ∃ js, extractJSLinks lower baseURL htmlContent doc complete = some js ∧ js.Nodup ∧
      ∀ x, x ∈ js ↔
        ∃ l ∈ textualCandidates htmlContent ++ structuralCandidates lower doc,
          finalForm baseURL complete l = some x := by
  obtain ⟨js0, h0, e0⟩ :=
    scanMatches_spec baseURL complete (FindAllStringSubmatch htmlContent) []
  cases doc with
  | none =>
    refine ⟨js0, by simp [extractJSLinks, h0], e0.1 List.nodup_nil, ?_⟩
    intro x
    rw [e0.2 x]
    simp [structuralCandidates, textualCandidates]
  | some d =>
    obtain ⟨js1, h1, e1⟩ := extractScriptTags_spec lower baseURL complete d js0
    have e := extends_trans baseURL complete _ _ [] js0 js1 e0 e1
    refine ⟨js1, by simp [extractJSLinks, h0, h1], e.1 List.nodup_nil, ?_⟩
    intro x
    rw [e.2 x]
    simp [structuralCandidates, textualCandidates, scriptSrcs]

theorem finalForm_verbatim (baseURL l x : Str) :
    finalForm baseURL false l = some x ↔ x = l := by
  simp [finalForm, eq_comm]

/-- C3: for a base that is `http://` or `https://` followed by at least one
character, `resolveURL` turns every reference into a string that begins with
`http://` or `https://`; so every reference `extractJSLinks` collects for such
a base in complete mode is an absolute URL. -/
theorem resolveURL_yields_absolute (p rest : Str) (hp : p = httpScheme ∨ p = httpsScheme)
    (hrest : rest ≠ []) :
    (∀ r : Str, ∃ out, resolveURL (p ++ rest) r = some out ∧
      (HasPrefix out httpScheme = true ∨ HasPrefix out httpsScheme = true)) ∧
    (∀ (lower : Char → Char) (htmlContent : Str) (doc : Option Node),
      ∃ js, extractJSLinks lower (p ++ rest) htmlContent doc true = some js ∧
        ∀ x ∈ js, HasPrefix x httpScheme = true ∨ HasPrefix x httpsScheme = true) := by
  refine ⟨fun r => resolveURL_scheme p rest r hp hrest, ?_⟩
  intro lower htmlContent doc
  obtain ⟨js, h, _, hmem⟩ := extractJSLinks_spec lower (p ++ rest) htmlContent doc true
  refine ⟨js, h, ?_⟩
  intro x hx
  obtain ⟨l, _, hl⟩ := (hmem x).mp hx
  obtain ⟨out, ho, hpre⟩ := resolveURL_scheme p rest l hp hrest
  simp only [finalForm, if_true] at hl
  rw [ho] at hl
  rw [← Option.some.inj hl]
  exact hpre

theorem resolveURL_yields_absolute_witness :
    (∀ r : Str, ∃ out, resolveURL "https://a.b/x/y".toList r = some out ∧
      (HasPrefix out httpScheme = true ∨ HasPrefix out httpsScheme = true)) ∧
    (∀ (lower : Char → Char) (htmlContent : Str) (doc : Option Node),
      ∃ js, extractJSLinks lower "https://a.b/x/y".toList htmlContent doc true = some js ∧
        ∀ x ∈ js, HasPrefix x httpScheme = true ∨ HasPrefix x httpsScheme = true) :=
  resolveURL_yields_absolute httpsScheme "a.b/x/y".toList (Or.inr rfl) (by decide)

/-- C6: for every base, page content, parse result and mode, `extractJSLinks`
returns, and whatever order the output loop visits the map in, the emitted
sequence has no duplicates and holds exactly the final forms (resolved in
complete mode, verbatim otherwise) of the candidates of the textual scan and
of the structural scan. -/
theorem extractJSLinks_emits_each_candidate_once (lower : Char → Char)
    (baseURL htmlContent : Str) (doc : Option Node) (complete : Bool) :
    ∃ js, extractJSLinks lower baseURL htmlContent doc complete = some js ∧
      ∀ out : List Str, Emits out js →
        out.Nodup ∧
        ∀ x, x ∈ out ↔
          ∃ l ∈ textualCandidates htmlContent ++ structuralCandidates lower doc,
            finalForm baseURL complete l = some x := by
  obtain ⟨js, h, hnd, hmem⟩ := extractJSLinks_spec lower baseURL htmlContent doc complete
  refine ⟨js, h, ?_⟩
  intro out hout
  unfold Emits at hout
  refine ⟨hout.nodup_iff.mpr hnd, ?_⟩
  intro x
  rw [hout.mem_iff]
  exact hmem x

/-- C7, as stated, fails: a `script` element whose `type` attribute is present
and empty is neither without a type nor of type `text/javascript`, yet the
structural scan takes its `src`. -/
theorem extractScriptTags_empty_type_counterexample :
    extractScriptTags Char.toLower
        (Node.mk NodeType.ElementNode scriptTag
          [{ Namespace := [], Key := typeKey, Val := [] },
           { Namespace := [], Key := srcKey, Val := "x.js".toList }] [])
        [] false [] = some ["x.js".toList] ∧
      scriptSrcs (typeAbsentOrJavascript Char.toLower)
        (Node.mk NodeType.ElementNode scriptTag
          [{ Namespace := [], Key := typeKey, Val := [] },
           { Namespace := [], Key := srcKey, Val := "x.js".toList }] []) = [] := by
  decide

/-- C7 (amended): for every parsed tree, the structural scan in verbatim mode,
started at the root with an empty result set, returns, and its result set is
exactly the set of `src` values of the `script` element nodes, at any depth,
whose `src` is non-empty and whose `type` is absent, empty, or equal to
`text/javascript` ignoring case. -/
theorem extractScriptTags_collects_script_srcs (lower : Char → Char) (root : Node)
    (baseURL : Str) :
    ∃ js, extractScriptTags lower root baseURL false [] = some js ∧ js.Nodup ∧
      ∀ x, x ∈ js ↔ x ∈ scriptSrcs (typeAbsentEmptyOrJavascript lower) root := by
  obtain ⟨js, h, e⟩ := extractScriptTags_spec lower baseURL false root []
  refine ⟨js, h, e.1 List.nodup_nil, ?_⟩
  intro x
  rw [e.2 x]
  simp [finalForm_verbatim, scriptSrcs]

/-- C5, as stated, fails: for the page `<script src="config.js.json"></script>`
the structural scan puts `config.js.json`, which contains `.json`, into the
result set of verbatim mode. -/
theorem extractJSLinks_json_src_counterexample :
    extractJSLinks Char.toLower "http://a.b/".toList
        "<script src=\"config.js.json\"></script>".toList
        (some (scriptDocument
          [{ Namespace := [], Key := srcKey, Val := "config.js.json".toList }]))
        false = some ["config.js.json".toList] ∧
      Contains "config.js.json".toList dotJson = true := by
  decide

/-- C5 (amended): in verbatim mode `extractJSLinks` returns, and no reference
that the textual scan contributes contains `.json`: a member of the result set
that contains `.json` is not a textual candidate but the `src` value of a
`script` element that the structural scan accepts. -/
theorem extractJSLinks_json_only_from_script_src (lower : Char → Char)
    (baseURL htmlContent : Str) (doc : Option Node) :
    ∃ js, extractJSLinks lower baseURL htmlContent doc false = some js ∧
      ∀ x ∈ js, Contains x dotJson = true →
        x ∉ textualCandidates htmlContent ∧ x ∈ structuralCandidates lower doc := by
  obtain ⟨js, h, _, hmem⟩ := extractJSLinks_spec lower baseURL htmlContent doc false
  refine ⟨js, h, ?_⟩
  intro x hx hjson
  have hnot : x ∉ textualCandidates htmlContent := by
    intro ht
    have := (textualCandidates_mem htmlContent x ht).2
    rw [this] at hjson
    exact Bool.noConfusion hjson
  obtain ⟨l, hl, hf⟩ := (hmem x).mp hx
  rw [finalForm_verbatim] at hf
  subst hf
  rcases List.mem_append.mp hl with h1 | h1
  · exact absurd h1 hnot
  · exact ⟨hnot, h1⟩

theorem extractJSLinks_emits_each_candidate_once_witness :
    extractJSLinks Char.toLower "http://a.b/".toList legacyPage (some legacyDocument) false
        = some ["app.js".toList, "legacy.js".toList] ∧
      Emits ["legacy.js".toList, "app.js".toList] ["app.js".toList, "legacy.js".toList] ∧
      (["legacy.js".toList, "app.js".toList].Nodup ∧
        ∀ x, x ∈ ["legacy.js".toList, "app.js".toList] ↔
          ∃ l ∈ textualCandidates legacyPage
              ++ structuralCandidates Char.toLower (some legacyDocument),
            finalForm "http://a.b/".toList false l = some x) := by
  obtain ⟨js, h, hall⟩ := extractJSLinks_emits_each_candidate_once Char.toLower
    "http://a.b/".toList legacyPage (some legacyDocument) false
  have hv : extractJSLinks Char.toLower "http://a.b/".toList legacyPage
      (some legacyDocument) false = some ["app.js".toList, "legacy.js".toList] := by decide
  rw [hv] at h
  have hjs := Option.some.inj h
  subst hjs
  have hperm : Emits ["legacy.js".toList, "app.js".toList]
      ["app.js".toList, "legacy.js".toList] := List.Perm.swap _ _ _
  exact ⟨hv, hperm, hall _ hperm⟩

theorem nodeSrcs_eq_nil (typeOk : Node → Bool) (nodes : List Node)
    (h : ∀ n ∈ nodes, isScriptElement n = true → typeOk n = false) :
    nodeSrcs typeOk nodes = [] := by
  have hf : nodes.filter (fun n => isScriptElement n && typeOk n) = [] := by
    rw [List.filter_eq_nil_iff]
    intro n hn hc
    simp only [Bool.and_eq_true] at hc
    rw [h n hn hc.1] at hc
    exact Bool.noConfusion hc.2
  simp [nodeSrcs, hf]

theorem typeMismatched_rejected (lower : Char → Char) (n : Node)
    (h : typeMismatched lower n = true) : typeAbsentEmptyOrJavascript lower n = false := by
  unfold typeMismatched at h
  unfold typeAbsentEmptyOrJavascript
  cases ht : typeOf n with
  | none => simp [ht] at h
  | some v =>
    simp only [ht, decide_eq_true_eq] at h
    simp [h.1, h.2]

theorem structuralCandidates_mismatched (lower : Char → Char) (doc : Option Node)
    (h : ∀ n ∈ parsedNodes doc, isScriptElement n = true → typeMismatched lower n = true) :
    structuralCandidates lower doc = [] := by
  cases doc with
  | none => rfl
  | some d =>
    simp only [structuralCandidates, scriptSrcs]
    apply nodeSrcs_eq_nil
    intro n hn hs
    exact typeMismatched_rejected lower n (h n hn hs)

/-- C4, as stated, fails at its own instance: for `t = text/css` and
`s = x.js` the textual scan finds the quoted attribute value `"x.js"` in the
page `<script type="text/css" src="x.js"></script>`, so the result set of
verbatim mode contains `x.js`, with the parsed tree and without it. -/
theorem extractJSLinks_mismatched_type_counterexample :
    ("text/css".toList ≠ [] ∧ ToLower Char.toLower "text/css".toList ≠ textJavascript ∧
      "x.js".toList ≠ [] ∧
      ∀ c ∈ "text/css".toList ++ "x.js".toList, isQuote c = false) ∧
    extractJSLinks Char.toLower "http://a.b/".toList cssTypePage (some cssTypeDocument) false
      = some ["x.js".toList] ∧
    extractJSLinks Char.toLower "http://a.b/".toList cssTypePage none false
      = some ["x.js".toList] ∧
    "x.js".toList ∈ ["x.js".toList] := by
  decide

/-- C4 (amended): for every base, every page and every parse result in which
each `script` element carries a mismatched type (a parsed `type` value that is
non-empty and not `text/javascript` ignoring case), extraction in verbatim
mode returns and the structural scan contributes nothing: the result set is
exactly the set of candidates of the textual scan, and no string that lacks
`.js` or contains `.json`, the `src` value of such an element included, is in
it. -/
theorem extractJSLinks_mismatched_type (lower : Char → Char) (baseURL htmlContent : Str)
    (doc : Option Node)
    (hdoc : ∀ n ∈ parsedNodes doc, isScriptElement n = true → typeMismatched lower n = true) :
    ∃ js, extractJSLinks lower baseURL htmlContent doc false = some js ∧
      (∀ x, x ∈ js ↔ x ∈ textualCandidates htmlContent) ∧
      ∀ s : Str, (Contains s dotJs = false ∨ Contains s dotJson = true) → s ∉ js := by
  obtain ⟨js, h, _, hmem⟩ := extractJSLinks_spec lower baseURL htmlContent doc false
  have hiff : ∀ x, x ∈ js ↔ x ∈ textualCandidates htmlContent := by
    intro x
    rw [hmem x, structuralCandidates_mismatched lower doc hdoc, List.append_nil]
    simp [finalForm_verbatim]
  refine ⟨js, h, hiff, ?_⟩
  intro s hcase hin
  obtain ⟨h1, h2⟩ := textualCandidates_mem _ s ((hiff s).mp hin)
  rcases hcase with hc | hc
  · rw [h1] at hc
    exact Bool.noConfusion hc
  · rw [h2] at hc
    exact Bool.noConfusion hc

theorem extractJSLinks_mismatched_type_witness :
    (∀ n ∈ parsedNodes (some cssSrcDocument),
      isScriptElement n = true → typeMismatched Char.toLower n = true) ∧
    extractJSLinks Char.toLower "http://a.b/".toList cssSrcPage (some cssSrcDocument) false
      = some [] ∧
    "x.css".toList ∉ ([] : LinkSet) := by
  have hdoc : ∀ n ∈ parsedNodes (some cssSrcDocument),
      isScriptElement n = true → typeMismatched Char.toLower n = true := by decide
  obtain ⟨js, h, _, hnot⟩ := extractJSLinks_mismatched_type Char.toLower
    "http://a.b/".toList cssSrcPage (some cssSrcDocument) hdoc
  have hv : extractJSLinks Char.toLower "http://a.b/".toList cssSrcPage
      (some cssSrcDocument) false = some [] := by decide
  rw [hv] at h
  have hjs := Option.some.inj h
  subst hjs
  exact ⟨hdoc, hv, hnot "x.css".toList (Or.inl (by decide))⟩

/-! ## The admission gate -/

theorem count_set (x a b : TaskPC) :
    ∀ (l : List TaskPC) (i : Nat), l.get? i = some a →
      (l.set i b).count x + (if a = x then 1 else 0)
        = l.count x + (if b = x then 1 else 0) := by
  intro l
  induction l with
  | nil => intro i h; simp at h
  | cons c cs ih =>
    intro i h
    cases i with
    | zero =>
      simp only [List.get?_cons_zero, Option.some.injEq] at h
      subst h
      simp only [List.set_cons_zero, List.count_cons, beq_iff_eq]
      omega
    | succ j =>
      simp only [List.get?_cons_succ] at h
      have := ih j h
      simp only [List.set_cons_succ, List.count_cons]
      omega

/-- Every step keeps the number of values in `sem` equal to the number of
goroutines between their send and their receive, and within the capacity. -/
theorem step_invariant (threads : Nat) (s : PoolState) (e : PoolEvent)
    (h : s.holding = s.sem ∧ s.sem ≤ threads) :
    (s.step threads e).holding = (s.step threads e).sem ∧ (s.step threads e).sem ≤ threads := by
  obtain ⟨h1, h2⟩ := h
  cases e with
  | spawn =>
    cases hp : s.pending with
    | nil =>
      simp only [PoolState.step, hp]
      exact ⟨h1, h2⟩
    | cons u rest =>
      simp only [PoolState.step, hp]
      refine ⟨?_, h2⟩
      simpa [PoolState.holding] using h1
  | advance i =>
    cases hget : s.tasks.get? i with
    | none =>
      simp only [PoolState.step, hget]
      exact ⟨h1, h2⟩
    | some pc =>
      simp only [PoolState.holding] at h1
      cases pc with
      | atAcquire =>
        have c1 := count_set TaskPC.inProcessURL TaskPC.atAcquire TaskPC.inProcessURL
          s.tasks i hget
        have c2 := count_set TaskPC.atRelease TaskPC.atAcquire TaskPC.inProcessURL
          s.tasks i hget
        simp at c1 c2
        by_cases hlt : s.sem < threads
        · simp only [PoolState.step, hget, if_pos hlt, PoolState.holding]
          constructor <;> omega
        · simp only [PoolState.step, hget, if_neg hlt, PoolState.holding]
          exact ⟨h1, h2⟩
      | inProcessURL =>
        have c1 := count_set TaskPC.inProcessURL TaskPC.inProcessURL TaskPC.atRelease
          s.tasks i hget
        have c2 := count_set TaskPC.atRelease TaskPC.inProcessURL TaskPC.atRelease
          s.tasks i hget
        simp at c1 c2
        simp only [PoolState.step, hget, PoolState.holding]
        constructor <;> omega
      | atRelease =>
        have c1 := count_set TaskPC.inProcessURL TaskPC.atRelease TaskPC.finished
          s.tasks i hget
        have c2 := count_set TaskPC.atRelease TaskPC.atRelease TaskPC.finished
          s.tasks i hget
        simp at c1 c2
        simp only [PoolState.step, hget, PoolState.holding]
        constructor <;> omega
      | finished =>
        simp only [PoolState.step, hget, PoolState.holding]
        exact ⟨h1, h2⟩

theorem run_invariant (threads : Nat) :
    ∀ (events : List PoolEvent) (s : PoolState), s.holding = s.sem ∧ s.sem ≤ threads →
      (s.run threads events).holding = (s.run threads events).sem ∧
        (s.run threads events).sem ≤ threads := by
  intro events
  induction events with
  | nil => intro s h; exact h
  | cons e es ih =>
    intro s h
    exact ih (s.step threads e) (step_invariant threads s e h)

/-- C9: for every URL list and every positive thread limit `N`, in every state
a run of `processURLsConcurrently` can reach, whatever the interleaving of the
goroutines, at most `N` calls of `processURL` are executing. -/
theorem processURLsConcurrently_bounded (urls : List Str) (outputOpened : Bool)
    (threads : Nat) (_hthreads : 0 < threads) (events : List PoolEvent) :
    ((PoolState.initial urls outputOpened).run threads events).executing ≤ threads := by
  have h := run_invariant threads events (PoolState.initial urls outputOpened)
    ⟨by simp [PoolState.holding, PoolState.initial], by simp [PoolState.initial]⟩
  have : ((PoolState.initial urls outputOpened).run threads events).executing
      ≤ ((PoolState.initial urls outputOpened).run threads events).holding := by
    simp [PoolState.executing, PoolState.holding]
  omega

theorem processURLsConcurrently_bounded_witness :
    ((PoolState.initial ["http://a/".toList, "http://b/".toList, "http://c/".toList]
        true).run 2
      [PoolEvent.spawn, PoolEvent.spawn, PoolEvent.spawn, PoolEvent.advance 0,
       PoolEvent.advance 1, PoolEvent.advance 2]).executing ≤ 2 :=
  processURLsConcurrently_bounded _ true 2 (by decide) _

end JsCrawler
